import Mathlib

/-!
Verification of the wordly guess-recommendation engine (`wordly/solver.py`).

Words and feedback strings are modelled as lists of characters.  The modules
`wordly/game.py` (the feedback simulator `make_guess`), `wordly/word_pool.py`
(the `WordPool` candidate-pool class) and `wordly/word_list.py` (the static
dictionary and the pre-baked opening-guess list) are not part of the source
tree under verification; their behaviour is modelled from the specification
(sections 3, 4.1, 4.2 and 6), and definitions coming from the spec rather
than from `solver.py` carry a doc comment saying so.

Randomness (`random.shuffle`, `random.choice`, `random.sample`) is modelled
as nondeterminism: each random decision is an explicit input, bundled in the
`Rand` structure, and theorems quantify over those inputs (with validity
hypotheses such as "the shuffled list is a permutation of the original").

Floating-point arithmetic is abstracted by exact rationals: the score
contribution `n_left ** cost_exp` (a Python float power, default exponent
1.75) is modelled by an arbitrary cost function `costFn : ℕ → ℚ`, and
`round(score, 3)` by an arbitrary `rnd : ℚ → ℚ`; the claims under
verification depend only on the loop structure, never on particular float
values.  Python's `float('inf')` is `⊤ : WithTop ℚ`.  A Python exception
(`AssertionError`, `IndexError` from `random.choice` on an empty sequence,
`ValueError` from `random.sample` with an oversized request) is modelled by
returning `none`.
-/

namespace Wordly

/-- A word, or a feedback string, is a list of characters. -/
abbrev Word := List Char

/-- Modelled from the spec: helper for the feedback simulator of
`wordly/game.py` (absent from src).  Walks the aligned (guess, target)
character pairs; an exact match emits the guessed letter, otherwise the
letter is marked present-elsewhere with the sentinel character if an
unconsumed occurrence remains in `rem`, the multiset of not-exactly-matched
target letters, and absent with the other sentinel otherwise. -/
def feedbackGo : List (Char × Char) → List Char → List Char
  | [], _ => []
  | (g, t) :: rest, rem =>
    if g = t then g :: feedbackGo rest rem
    else if rem.contains g then '?' :: feedbackGo rest (rem.erase g)
    else '.' :: feedbackGo rest rem

/-- Modelled from the spec: `make_guess` of `wordly/game.py` (absent from
src), the pure feedback simulator of spec section 4.1.  The feedback
character is the guessed letter itself on an exact positional match, the
sentinel for present-elsewhere while the letter's occurrences in the target
remain unconsumed, and the sentinel for absent beyond that count. -/
def make_guess (guess target : Word) : Word :=
  feedbackGo (guess.zip target)
    (((guess.zip target).filter (fun p => p.1 != p.2)).map (fun p => p.2))

/-- Modelled from the spec: a word is consistent with the guess history when
replaying every recorded guess against it reproduces the recorded feedback
exactly (spec section 3, pool-consistency invariant). -/
def consistent (guesses : List (Word × Word)) (w : Word) : Bool :=
  guesses.all (fun p => make_guess p.1 w == p.2)

/-- Modelled from the spec: `WordPool.apply_guesses` of `wordly/word_pool.py`
(absent from src): remove every word that is inconsistent with some
guess/feedback pair of the history (spec section 4.2).  Pools are modelled
as lists of words. -/
def apply_guesses (pool : List Word) (guesses : List (Word × Word)) : List Word :=
  pool.filter (fun w => consistent guesses w)

/-- Modelled from the spec: the letters of the guess marked absent by the
feedback (the positions carrying the absent sentinel). -/
def absentLetters (guess result : Word) : List Char :=
  (guess.zip result).filterMap (fun p => if p.2 = '.' then some p.1 else none)

/-- Modelled from the spec: `WordPool.apply_nonmatches` of
`wordly/word_pool.py` (absent from src): the cheap pre-filter that removes
candidates containing a letter marked absent, ignoring positional and
duplicate nuance (spec section 4.2). -/
def apply_nonmatches (pool : List Word) (guess result : Word) : List Word :=
  pool.filter (fun w => !((absentLetters guess result).any (fun c => w.contains c)))

/-- Modelled from the spec: the hard-mode reuse check for one history entry:
every known exact-match letter must stay at its position and every known
present-elsewhere letter must occur somewhere in the word (spec section 3). -/
def hardmodeOkPair (w guess result : Word) : Bool :=
  ((guess.zip result).zip w).all (fun p =>
    if p.1.2 = '.' then true
    else if p.1.2 = '?' then w.contains p.1.1
    else p.2 == p.1.2)

/-- Modelled from the spec: `WordPool.apply_hardmode_constraints` of
`wordly/word_pool.py` (absent from src): keep only the words satisfying the
hard-mode reuse invariant across the full history (spec section 4.2). -/
def apply_hardmode_constraints (pool : List Word) (guesses : List (Word × Word)) : List Word :=
  pool.filter (fun w => guesses.all (fun p => hardmodeOkPair w p.1 p.2))

/-- Configuration of a `Solver` (constructor parameters of `Solver.__init__`).
`costFn` abstracts the float power `n ** cost_exp` and `rnd` abstracts
`round(·, 3)`; `gtRat` is the solver's `gt_ratio` parameter. -/
structure Config where
  hard_mode : Bool
  costFn : ℕ → ℚ
  maxPoolSize : ℕ
  gtRat : ℕ
  rnd : ℚ → ℚ

/-- One bundle of random decisions consumed by `Solver.get_next_words`:
the result of `random.shuffle` on the opening list, the index drawn by
`random.choice`, the shuffled order of the history items used by the
pre-filter, and the subsets drawn by `random.sample` in the subsampling
loop. -/
structure Rand where
  shuffleFirst : List Word
  choiceIdx : ℕ
  shuffledGuesses : List (Word × Word)
  samp : List Word → ℕ → List Word

/-- State of the pool-reduction phase of `Solver.get_next_words`: the two
subsampled pools together with the program variable `pool_size` (which, per
the source, is not recomputed after the pre-filter and is only refreshed at
the end of each subsampling iteration). -/
structure RState where
  valids : List Word
  targets : List Word
  poolSize : ℕ
deriving DecidableEq

/-- Sample size requested by one halving step: `max(n // 2, 10)`. -/
def sampleSize (n : ℕ) : ℕ := max (n / 2) 10

/-- The pre-filter phase of `Solver.get_next_words` (lines 79-92): walk the
shuffled history items; stop once the product of the current pool sizes is
within budget; otherwise apply `apply_nonmatches` to the valids pool and
revert the step if it leaves fewer than 50 words. -/
def prefilterGo (maxPool : ℕ) (targets : List Word) :
    List (Word × Word) → List Word → List Word
  | [], v => v
  | (g, res) :: rest, v =>
    if v.length * targets.length ≤ maxPool then v
    else
      let v2 := apply_nonmatches v g res
      if v2.length < 50 then prefilterGo maxPool targets rest v
      else prefilterGo maxPool targets rest v2

/-- One iteration of the subsampling loop (lines 96-108): pick the valids
pool when `len(valids) >= len(targets) * gt_ratio`, else the targets pool;
draw `max(n // 2, 10)` words from it (`none` models the `ValueError` that
`random.sample` raises when the request exceeds the population) and refresh
`pool_size`. -/
def loopStep (gtRat : ℕ) (samp : List Word → ℕ → List Word) (st : RState) : Option RState :=
  if st.targets.length * gtRat ≤ st.valids.length then
    let k := sampleSize st.valids.length
    if k ≤ st.valids.length then
      let v := samp st.valids k
      some ⟨v, st.targets, st.targets.length * v.length⟩
    else none
  else
    let k := sampleSize st.targets.length
    if k ≤ st.targets.length then
      let t := samp st.targets k
      some ⟨st.valids, t, t.length * st.valids.length⟩
    else none

/-- The subsampling `while` loop (line 95): iterate `loopStep` while the
`pool_size` variable exceeds the budget.  The loop of the source has no
fuel; `loopRun` takes fuel, and the termination theorem for claim C5 shows
that the fuel used by `reducePools` reaches the loop's fixpoint. -/
def loopRun (gtRat maxPool : ℕ) (samp : List Word → ℕ → List Word) :
    ℕ → RState → Option RState
  | 0, st => some st
  | fuel + 1, st =>
    if maxPool < st.poolSize then
      match loopStep gtRat samp st with
      | none => none
      | some st2 => loopRun gtRat maxPool samp fuel st2
    else some st

/-- State entering the subsampling loop: `pool_size` is computed from the
full pools (line 74) and the pre-filter runs only when it exceeds the
budget (line 79); crucially, `pool_size` is not refreshed afterwards. -/
def entryState (cfg : Config) (r : Rand) (valids targets : List Word) : RState :=
  if cfg.maxPoolSize < valids.length * targets.length then
    ⟨prefilterGo cfg.maxPoolSize targets r.shuffledGuesses valids, targets,
      valids.length * targets.length⟩
  else ⟨valids, targets, valids.length * targets.length⟩

/-- The complete pool-reduction pipeline of `Solver.get_next_words`
(pre-filter then subsampling loop); the fuel `poolSize + 1` is proven
sufficient under the default configuration. -/
def reducePools (cfg : Config) (r : Rand) (valids targets : List Word) : Option RState :=
  loopRun cfg.gtRat cfg.maxPoolSize r.samp
    ((entryState cfg r valids targets).poolSize + 1) (entryState cfg r valids targets)

/-- The merged hypothetical history `{guess: feedback} | guesses` built at
line 148-149: Python's `dict.update` keeps the historical feedback when the
candidate guess already occurs as a key of the history. -/
def merged (guesses : List (Word × Word)) (g fb : Word) : List (Word × Word) :=
  if guesses.any (fun p => p.1 == g) then guesses else (g, fb) :: guesses

/-- Size of the targets subset after narrowing by the history merged with
the simulated feedback for the pair `(g, tw)` (lines 147-152). -/
def nLeft (guesses : List (Word × Word)) (tpool : List Word) (g tw : Word) : ℕ :=
  (apply_guesses tpool (merged guesses g (make_guess g tw))).length

/-- Score contribution of one (guess, target) pair: the code's
`n_left ** cost_exp`, abstracted through `Config.costFn`. -/
def costOf (cfg : Config) (guesses : List (Word × Word)) (tpool : List Word)
    (g tw : Word) : ℚ :=
  cfg.costFn (nLeft guesses tpool g tw)

/-- The inner scoring loop for one candidate guess (lines 144-157): add the
cost of each target in turn and break out as soon as the accumulated score
exceeds the running best. -/
def evalGo (cfg : Config) (guesses : List (Word × Word)) (tpool : List Word)
    (g : Word) (best : WithTop ℚ) : List Word → ℚ → ℚ
  | [], acc => acc
  | tw :: rest, acc =>
    let acc2 := acc + costOf cfg guesses tpool g tw
    if best < (acc2 : WithTop ℚ) then acc2
    else evalGo cfg guesses tpool g best rest acc2

/-- Score computed for the guess `g` by the inner loop, starting from 0 and
iterating over the bounded targets pool. -/
def evalGuess (cfg : Config) (guesses : List (Word × Word)) (tpool : List Word)
    (best : WithTop ℚ) (g : Word) : ℚ :=
  evalGo cfg guesses tpool g best tpool 0

/-- The outer scoring loop (lines 143-160): evaluate each candidate guess
against the running best; a guess whose score is strictly below the best is
appended to the result list (with its score put through `round(·, 3)`,
abstracted by `rnd`) and becomes the new best. -/
def scoreLoop (cfg : Config) (guesses : List (Word × Word)) (tpool : List Word) :
    List Word → WithTop ℚ → List (Word × ℚ) → List (Word × ℚ)
  | [], _, out => out
  | g :: rest, best, out =>
    let s := evalGuess cfg guesses tpool best g
    if (s : WithTop ℚ) < best then
      scoreLoop cfg guesses tpool rest (s : WithTop ℚ) (out ++ [(g, cfg.rnd s)])
    else scoreLoop cfg guesses tpool rest best out

/-- The final sort of line 163: ascending by the stored score. -/
def sortScores (l : List (Word × ℚ)) : List (Word × ℚ) :=
  l.mergeSort (fun a b => decide (a.2 ≤ b.2))

/-- Translation of `Solver.get_next_words`.  `dict` is the static dictionary
(`all_wordle_words`, shared initial contents of both pools), `tfg` is the
current contents of the module-level `top_first_guesses` list, and the
returned pair carries the recommendation result (`none` models an uncaught
exception) together with the contents of `top_first_guesses` after the call
(the empty-history branch shuffles that list in place). -/
def get_next_words (cfg : Config) (dict : List Word) (r : Rand) (tfg : List Word)
    (guesses : List (Word × Word)) : Option (List (Word × ℚ)) × List Word :=
  if guesses = [] then
    (some (r.shuffleFirst.map (fun x => (x, (1 : ℚ)))), r.shuffleFirst)
  else
    let targets := apply_guesses dict guesses
    let valids := if cfg.hard_mode then apply_hardmode_constraints dict guesses else dict
    if targets.length ≤ 2 then
      match targets with
      | [] => (none, tfg)
      | t :: ts =>
        (some [(List.getD (t :: ts) (r.choiceIdx % (t :: ts).length) [], (1 : ℚ))], tfg)
    else
      match reducePools cfg r valids targets with
      | none => (none, tfg)
      | some st =>
        (some (sortScores (scoreLoop cfg guesses st.targets st.valids ⊤ [])), tfg)

/-- Shape validity of one history pair, exactly the asserts of
`sanitize_validate_input` (lines 173-177): both strings of length 5, the
guess alphabetic, every feedback character alphabetic or one of the two
sentinel characters. -/
def validPair (g res : Word) : Bool :=
  (g.length == 5) && ((res.length == 5) && ((g.all (fun c => c.isAlpha)) &&
    (res.all (fun c => c.isAlpha || (c == '.' || c == '?')))))

/-- Uppercase a word character by character (`str.upper()`). -/
def upperW (w : Word) : Word := w.map Char.toUpper

/-- Python dict assignment `d[k] = v` on an association list: overwrite the
value in place when the key is present, append otherwise. -/
def upsert (m : List (Word × Word)) (k v : Word) : List (Word × Word) :=
  if m.any (fun p => p.1 == k) then
    m.map (fun p => if p.1 == k then (k, v) else p)
  else m ++ [(k, v)]

/-- Iteration of `sanitize_validate_input` over the history items: insert
the uppercased pair, then run the asserts on the original pair; the first
failing assert aborts the call (`none` models the `AssertionError`). -/
def sanitizeGo : List (Word × Word) → List (Word × Word) → Option (List (Word × Word))
  | [], acc => some acc
  | (g, res) :: rest, acc =>
    if validPair g res then sanitizeGo rest (upsert acc (upperW g) (upperW res)) else none

/-- Translation of `sanitize_validate_input` (lines 169-178). -/
def sanitize_validate_input (guesses : List (Word × Word)) : Option (List (Word × Word)) :=
  sanitizeGo guesses []

/-- Translation of `recommend_next_words` (lines 181-189): sanitize, run a
fresh solver with the default configuration (`max_pool_size = 5000`,
`gt_ratio = 1`), and cap the result at 10 entries. -/
def recommend_next_words (costFn : ℕ → ℚ) (rnd : ℚ → ℚ) (dict : List Word) (r : Rand)
    (tfg : List Word) (guesses : List (Word × Word)) (hard_mode : Bool) :
    Option (List (Word × ℚ)) × List Word :=
  match sanitize_validate_input guesses with
  | none => (none, tfg)
  | some gs =>
    let res := get_next_words ⟨hard_mode, costFn, 5000, 1, rnd⟩ dict r tfg gs
    (res.1.map (fun l => if 10 < l.length then l.take 10 else l), res.2)

/-- Specification-side cumulative sums for claim C1: the partial sums of the
per-target costs of the guess `g`, starting from `acc`. -/
def partialsFrom (cfg : Config) (guesses : List (Word × Word)) (tpool : List Word)
    (g : Word) : ℚ → List Word → List ℚ
  | _, [] => []
  | acc, tw :: rest =>
    (acc + costOf cfg guesses tpool g tw) ::
      partialsFrom cfg guesses tpool g (acc + costOf cfg guesses tpool g tw) rest

/-- Specification-side evaluation for claim C1, written from the claim's
words: the evaluation of `g` stops at the first partial sum strictly
exceeding the running best and yields that partial sum; when no partial sum
exceeds the best, the completed score is the full sum of `costFn (n_left)`
over the bounded targets subset. -/
def specEvalFrom (cfg : Config) (guesses : List (Word × Word)) (tpool : List Word)
    (g : Word) (best : WithTop ℚ) (acc : ℚ) (l : List Word) : ℚ :=
  match (partialsFrom cfg guesses tpool g acc l).find?
      (fun s : ℚ => decide (best < (s : WithTop ℚ))) with
  | some s => s
  | none => acc + ((l.map (fun tw => costOf cfg guesses tpool g tw)).sum)

/-- Specification-side score of one guess for claim C1. -/
def specEval (cfg : Config) (guesses : List (Word × Word)) (tpool : List Word)
    (best : WithTop ℚ) (g : Word) : ℚ :=
  specEvalFrom cfg guesses tpool g best 0 tpool

/-- Specification-side outer loop for claim C1, written from the claim's
words: a guess is retained, and updates the best-so-far, exactly when its
(possibly early-aborted) score is strictly less than the best-so-far. -/
def specScoreLoop (cfg : Config) (guesses : List (Word × Word)) (tpool : List Word) :
    List Word → WithTop ℚ → List (Word × ℚ) → List (Word × ℚ)
  | [], _, out => out
  | g :: rest, best, out =>
    let s := specEval cfg guesses tpool best g
    if (s : WithTop ℚ) < best then
      specScoreLoop cfg guesses tpool rest (s : WithTop ℚ) (out ++ [(g, cfg.rnd s)])
    else specScoreLoop cfg guesses tpool rest best out

/-- Validity of a sampler standing in for `random.sample`: on a request not
exceeding the population it returns exactly the requested number of words,
all drawn from the population. -/
def ValidSamp (samp : List Word → ℕ → List Word) : Prop :=
  ∀ p k, k ≤ p.length → (samp p k).length = k ∧ (samp p k) ⊆ p

/-! Concrete inputs used by the witnesses and counterexamples. -/

/-- Concrete word made of five letters A. -/
def wA : Word := ['A', 'A', 'A', 'A', 'A']

/-- Concrete word made of five letters B. -/
def wB : Word := ['B', 'B', 'B', 'B', 'B']

/-- Concrete word made of five letters C. -/
def wC : Word := ['C', 'C', 'C', 'C', 'C']

/-- Concrete cost function (exponent 1, exact arithmetic). -/
def cf0 : ℕ → ℚ := fun n => (n : ℚ)

/-- Concrete deterministic sampler: take the first `k` elements. -/
def sampTake : List Word → ℕ → List Word := fun p k => p.take k

/-- Concrete solver configuration with the default budget parameters. -/
def cfg0 : Config := ⟨false, cf0, 5000, 1, fun q => q⟩

/-- Concrete random bundle with empty shuffle data. -/
def r0 : Rand := ⟨[], 0, [], sampTake⟩

/-- Concrete random bundle whose opening-list shuffle swaps a two-word list. -/
def r0w : Rand := ⟨[wB, wA], 0, [], sampTake⟩

/-- Feedback claiming the first guessed letter is present elsewhere and the
rest absent; no target can produce it for an all-same-letter guess. -/
def fQm : Word := ['?', '.', '.', '.', '.']

/-- Concrete guess ABCDE used by the pool-reduction examples. -/
def gAE : Word := ['A', 'B', 'C', 'D', 'E']

/-- Concrete target QAQQQ, consistent with feedback `?....` for ABCDE. -/
def tQ1 : Word := ['Q', 'A', 'Q', 'Q', 'Q']

/-- Concrete target QQAQQ, consistent with feedback `?....` for ABCDE. -/
def tQ2 : Word := ['Q', 'Q', 'A', 'Q', 'Q']

/-- Concrete target QQQAQ, consistent with feedback `?....` for ABCDE. -/
def tQ3 : Word := ['Q', 'Q', 'Q', 'A', 'Q']

/-- Letters not occurring in ABCDE, used to build filler words. -/
def tailChars : List Char :=
  ['F', 'G', 'H', 'I', 'J', 'K', 'L', 'M', 'N', 'O', 'P', 'Q', 'R', 'S', 'T', 'U',
   'V', 'W', 'X', 'Y', 'Z']

/-- Forty-seven distinct filler words containing none of the letters of
ABCDE and no A, hence inconsistent with feedback `?....` for ABCDE. -/
def fillers : List Word :=
  ((tailChars.map (fun a => tailChars.map (fun b => ['F', 'F', 'F', a, b]))).flatten).take 47

/-- Concrete 51-word dictionary: three consistent targets, forty-seven
fillers, and BBBBB (the only word containing a letter of BCDE). -/
def dictC6 : List Word := [tQ1, tQ2, tQ3] ++ fillers ++ [wB]

/-- Concrete one-entry history for the pool-reduction examples. -/
def histC6 : List (Word × Word) := [(gAE, fQm)]

/-- Configuration with budget 150, chosen so that the pre-filter lands the
pool product exactly on the budget. -/
def cfgC6 : Config := ⟨false, cf0, 150, 1, fun q => q⟩

/-- Random bundle for the pool-reduction examples: the shuffled history is
the one-entry history itself and sampling takes a prefix. -/
def rC6 : Rand := ⟨[], 0, [(gAE, fQm)], sampTake⟩

/-- Concrete three-word dictionary with exactly two targets consistent with
`histC6`. -/
def dict8 : List Word := [tQ1, tQ2, wC]

/-- The take-a-prefix sampler satisfies the `random.sample` contract. -/
theorem validSamp_take : ValidSamp sampTake := by
  intro p k hk
  refine ⟨?_, List.take_subset k p⟩
  simp [sampTake, List.length_take, Nat.min_eq_left hk]

/-! Scoring loop: the inner evaluation equals the specification-side
prefix-sum description (claim C1). -/

/-- The inner loop computes exactly the first partial sum exceeding the
running best, or the completed total when none does. -/
theorem evalGo_eq_specEvalFrom (cfg : Config) (guesses : List (Word × Word))
    (tpool : List Word) (g : Word) (best : WithTop ℚ) :
    ∀ (l : List Word) (acc : ℚ),
      evalGo cfg guesses tpool g best l acc = specEvalFrom cfg guesses tpool g best acc l := by
  intro l
  induction l with
  | nil => intro acc; simp [evalGo, specEvalFrom, partialsFrom]
  | cons tw rest ih =>
    intro acc
    by_cases h : best < ((acc + costOf cfg guesses tpool g tw : ℚ) : WithTop ℚ)
    · rw [evalGo, specEvalFrom, partialsFrom, List.find?_cons_of_pos _ (by simpa using h),
        if_pos h]
    · rw [evalGo, if_neg h, ih, specEvalFrom, specEvalFrom, partialsFrom,
        List.find?_cons_of_neg _ (by simpa using h)]
      cases hf : (partialsFrom cfg guesses tpool g (acc + costOf cfg guesses tpool g tw)
          rest).find? (fun s : ℚ => decide (best < (s : WithTop ℚ))) with
      | some s => rfl
      | none => simp [add_assoc]

/-- C1: in the general-case search of `Solver.get_next_words`, the score of a
candidate guess `g` is accumulated as the sum over targets `tw` of
`costFn (n_left)` (`n_left` the size of the targets subset after narrowing
by the history merged with the simulated feedback for `(g, tw)`); the
evaluation aborts early exactly at the first partial sum strictly exceeding
the running best (returning that partial sum), and a guess is retained —
and updates the best-so-far — if and only if its resulting score is
strictly less than the best-so-far: the code loops `evalGuess`/`scoreLoop`
coincide with the specification-side `specEval`/`specScoreLoop`, which are
literal renderings of that description. -/
theorem c1_scoring_branch_and_bound (cfg : Config) (guesses : List (Word × Word))
    (tpool : List Word) :
    (∀ best g, evalGuess cfg guesses tpool best g = specEval cfg guesses tpool best g) ∧
    (∀ gpool best out,
      scoreLoop cfg guesses tpool gpool best out = specScoreLoop cfg guesses tpool gpool best out) := by
  have he : ∀ best g, evalGuess cfg guesses tpool best g = specEval cfg guesses tpool best g :=
    fun best g => evalGo_eq_specEvalFrom cfg guesses tpool g best tpool 0
  refine ⟨he, ?_⟩
  intro gpool
  induction gpool with
  | nil => intro best out; rfl
  | cons g rest ih =>
    intro best out
    rw [scoreLoop, specScoreLoop]
    simp only [he]
    by_cases h : ((specEval cfg guesses tpool best g : ℚ) : WithTop ℚ) < best
    · rw [if_pos h, if_pos h, ih]
    · rw [if_neg h, if_neg h, ih]

/-! Sanitization (claim C9). -/

/-- The sanitizer fails exactly when some history pair violates the shape
constraints, regardless of the accumulator. -/
theorem sanitizeGo_eq_none_iff :
    ∀ (gs : List (Word × Word)) (acc : List (Word × Word)),
      sanitizeGo gs acc = none ↔ ∃ p ∈ gs, validPair p.1 p.2 = false := by
  intro gs
  induction gs with
  | nil => intro acc; simp [sanitizeGo]
  | cons p rest ih =>
    intro acc
    obtain ⟨g, res⟩ := p
    by_cases h : validPair g res
    · rw [sanitizeGo, if_pos h, ih]
      constructor
      · rintro ⟨q, hq, hval⟩
        exact ⟨q, List.mem_cons_of_mem _ hq, hval⟩
      · rintro ⟨q, hq, hval⟩
        rcases List.mem_cons.mp hq with hq | hq
        · subst hq; simp only [h] at hval; cases hval
        · exact ⟨q, hq, hval⟩
    · rw [sanitizeGo, if_neg h]
      simp only [true_iff]
      exact ⟨(g, res), List.mem_cons_self _ _, by simpa using h⟩

/-- When the sanitizer succeeds its result is the uppercased-and-upserted
fold of the input pairs. -/
theorem sanitizeGo_eq_some :
    ∀ (gs : List (Word × Word)) (acc m : List (Word × Word)),
      sanitizeGo gs acc = some m →
        m = gs.foldl (fun a p => upsert a (upperW p.1) (upperW p.2)) acc := by
  intro gs
  induction gs with
  | nil => intro acc m h; simpa [sanitizeGo] using h.symm
  | cons p rest ih =>
    intro acc m h
    obtain ⟨g, res⟩ := p
    by_cases hv : validPair g res
    · rw [sanitizeGo, if_pos hv] at h
      simpa using ih _ _ h
    · rw [sanitizeGo, if_neg hv] at h
      cases h

/-- C9: `recommend_next_words` signals an input error if and only if some
guess/feedback pair violates the shape constraints (a length other than 5,
a non-alphabetic guess, or a feedback character neither alphabetic nor one
of the two sentinels); on success the history it uses is the fold of the
uppercased pairs; and when the error fires, `recommend_next_words` returns
before any search work, leaving the opening-guess list untouched. -/
theorem c9_sanitization (gs : List (Word × Word)) :
    (sanitize_validate_input gs = none ↔ ∃ p ∈ gs, validPair p.1 p.2 = false) ∧
    (∀ m, sanitize_validate_input gs = some m →
      m = gs.foldl (fun a p => upsert a (upperW p.1) (upperW p.2)) []) ∧
    (∀ costFn rnd dict r tfg hm, sanitize_validate_input gs = none →
      recommend_next_words costFn rnd dict r tfg gs hm = (none, tfg)) := by
  refine ⟨sanitizeGo_eq_none_iff gs [], fun m h => sanitizeGo_eq_some gs [] m h, ?_⟩
  intro costFn rnd dict r tfg hm h
  rw [recommend_next_words, h]

/-- Witness for C9 at a concrete malformed history: a four-letter guess is
rejected and the call returns immediately with the opening list untouched. -/
theorem c9_sanitization_witness :
    (sanitize_validate_input [(['A', 'B', 'C', 'D'], fQm)] = none ∧
      recommend_next_words cf0 (fun q => q) [] r0 [wA] [(['A', 'B', 'C', 'D'], fQm)] false
        = (none, [wA])) := by
  have h := c9_sanitization [(['A', 'B', 'C', 'D'], fQm)]
  have hn : sanitize_validate_input [(['A', 'B', 'C', 'D'], fQm)] = none :=
    h.1.mpr ⟨(['A', 'B', 'C', 'D'], fQm), by simp, by decide⟩
  exact ⟨hn, h.2.2 cf0 (fun q => q) [] r0 [wA] false hn⟩

/-! Branch lemmas for `get_next_words`. -/

/-- With an empty history the call returns the shuffled opening list, scored
1, and stores the shuffled list back. -/
theorem get_next_words_nil (cfg : Config) (dict : List Word) (r : Rand) (tfg : List Word) :
    get_next_words cfg dict r tfg [] =
      (some (r.shuffleFirst.map (fun x => (x, (1 : ℚ)))), r.shuffleFirst) := rfl

/-- With a non-empty history narrowing the targets pool to nothing, the call
hits `random.choice` on an empty sequence and raises (modelled as `none`). -/
theorem get_next_words_zero (cfg : Config) (dict : List Word) (r : Rand) (tfg : List Word)
    (guesses : List (Word × Word)) (hne : guesses ≠ [])
    (hz : apply_guesses dict guesses = []) :
    get_next_words cfg dict r tfg guesses = (none, tfg) := by
  rw [get_next_words, if_neg hne]
  simp [hz]

/-- With a non-empty history narrowing the targets pool to one or two words,
the call returns the word drawn by `random.choice`, scored 1. -/
theorem get_next_words_small (cfg : Config) (dict : List Word) (r : Rand) (tfg : List Word)
    (guesses : List (Word × Word)) (hne : guesses ≠ []) {t : Word} {ts : List Word}
    (hT : apply_guesses dict guesses = t :: ts) (hlen : (t :: ts).length ≤ 2) :
    get_next_words cfg dict r tfg guesses =
      (some [((t :: ts).getD (r.choiceIdx % (t :: ts).length) [], (1 : ℚ))], tfg) := by
  rw [get_next_words, if_neg hne]
  simp only [hT]
  rw [if_pos hlen]

/-- With more than two remaining targets the call runs the bounded search on
the reduced pools. -/
theorem get_next_words_general (cfg : Config) (dict : List Word) (r : Rand) (tfg : List Word)
    (guesses : List (Word × Word)) (hne : guesses ≠ [])
    (hbig : ¬ (apply_guesses dict guesses).length ≤ 2) :
    get_next_words cfg dict r tfg guesses =
      (match reducePools cfg r
          (if cfg.hard_mode then apply_hardmode_constraints dict guesses else dict)
          (apply_guesses dict guesses) with
        | none => (none, tfg)
        | some st =>
          (some (sortScores (scoreLoop cfg guesses st.targets st.valids ⊤ [])), tfg)) := by
  rw [get_next_words, if_neg hne]
  simp only [if_neg hbig]

/-! Claim C2: behaviour on a contradictory history. -/

/-- Counterexample for C2: a concrete non-empty history admitting zero
remaining target candidates on which `get_next_words` does not return an
empty or degenerate recommendation list but raises (the `IndexError` of
`random.choice` on an empty sequence, modelled as `none`). -/
theorem c2_zero_targets_counterexample :
    apply_guesses [wC] [(wA, fQm)] = [] ∧
    get_next_words cfg0 [wC] r0 [wA] [(wA, fQm)] = (none, [wA]) := by
  constructor
  · decide
  · decide

/-- C2 amended: for every non-empty guess history whose constraints admit
zero remaining target candidates, `Solver.get_next_words` raises an
uncaught `IndexError` from `random.choice` on the empty remaining-targets
sequence (modelled as the `none` result) instead of returning a list, and
`recommend_next_words` propagates that exception. -/
theorem c2_zero_targets_amended (dict : List Word) (r : Rand)
    (tfg : List Word) (guesses : List (Word × Word)) (hne : guesses ≠ [])
    (hz : apply_guesses dict guesses = []) :
    (∀ cfg, get_next_words cfg dict r tfg guesses = (none, tfg)) ∧
    (∀ costFn rnd hm gs0, sanitize_validate_input gs0 = some guesses →
      recommend_next_words costFn rnd dict r tfg gs0 hm = (none, tfg)) := by
  have h1 : ∀ cfg, get_next_words cfg dict r tfg guesses = (none, tfg) :=
    fun cfg => get_next_words_zero cfg dict r tfg guesses hne hz
  refine ⟨h1, ?_⟩
  intro costFn rnd hm gs0 hg
  rw [recommend_next_words, hg]
  simp [h1 ⟨hm, costFn, 5000, 1, rnd⟩]

/-- Witness for the amended C2 at a concrete contradictory history. -/
theorem c2_zero_targets_amended_witness :
    get_next_words cfg0 [wC] r0 [wB] [(wA, fQm)] = (none, [wB]) ∧
    recommend_next_words cf0 (fun q => q) [wC] r0 [wB] [(wA, fQm)] false = (none, [wB]) :=
  have h := c2_zero_targets_amended [wC] r0 [wB] [(wA, fQm)] (by decide) (by decide)
  ⟨h.1 cfg0, h.2 cf0 (fun q => q) false [(wA, fQm)] (by decide)⟩

/-! Claim C3: empty history returns the opening set. -/

/-- C3: for an empty guess history, `recommend_next_words` returns exactly
the (shuffled) precomputed opening list, each entry scored 1; as a set —
a permutation — the returned words equal the full precomputed list.  The
opening list is modelled from the spec (its contents are in the absent
`wordly/word_list.py`); the spec's 10-entry cap forces the hypothesis that
the precomputed list has at most 10 entries. -/
theorem c3_empty_history_opening (costFn : ℕ → ℚ) (rnd : ℚ → ℚ) (dict : List Word)
    (r : Rand) (tfg : List Word) (hm : Bool)
    (hperm : r.shuffleFirst.Perm tfg) (hlen : tfg.length ≤ 10) :
    recommend_next_words costFn rnd dict r tfg [] hm
      = (some (r.shuffleFirst.map (fun x => (x, (1 : ℚ)))), r.shuffleFirst)
    ∧ ((r.shuffleFirst.map (fun x => (x, (1 : ℚ)))).map Prod.fst).Perm tfg
    ∧ ∀ p ∈ r.shuffleFirst.map (fun x => (x, (1 : ℚ))), p.2 = 1 := by
  have hlen0 : ¬ 10 < (r.shuffleFirst.map (fun x => (x, (1 : ℚ)))).length := by
    rw [List.length_map, hperm.length_eq]
    omega
  refine ⟨?_, ?_, ?_⟩
  · rw [recommend_next_words]
    simp only [sanitize_validate_input, sanitizeGo]
    rw [get_next_words_nil]
    simp only [Option.map_some', if_neg hlen0]
  · have hmf : (r.shuffleFirst.map (fun x => (x, (1 : ℚ)))).map Prod.fst = r.shuffleFirst := by
      simp [Function.comp_def]
    rw [hmf]
    exact hperm
  · intro p hp
    simp only [List.mem_map] at hp
    obtain ⟨x, _, rfl⟩ := hp
    rfl

/-- Witness for C3 at a concrete two-word opening list and a concrete
shuffle that reverses it. -/
theorem c3_empty_history_opening_witness :
    recommend_next_words cf0 (fun q => q) [] r0w [wA, wB] [] false
      = (some ([wB, wA].map (fun x => (x, (1 : ℚ)))), [wB, wA])
    ∧ (([wB, wA].map (fun x => (x, (1 : ℚ)))).map Prod.fst).Perm [wA, wB]
    ∧ ∀ p ∈ [wB, wA].map (fun x => (x, (1 : ℚ))), p.2 = 1 :=
  c3_empty_history_opening cf0 (fun q => q) [] r0w [wA, wB] false (by decide) (by decide)

/-! Claim C4: mutation of the precomputed opening-guess list. -/

/-- Counterexample for C4: an empty-history call shuffles the shared
precomputed list in place — here a shuffle outcome that reverses a two-word
list leaves the stored list in a different order than before the call. -/
theorem c4_readonly_counterexample :
    (r0w.shuffleFirst).Perm [wA, wB] ∧
    (get_next_words cfg0 [] r0w [wA, wB] []).2 ≠ [wA, wB] := by
  constructor
  · decide
  · decide

/-- C4 amended: a call with non-empty history leaves the precomputed
opening-guess list untouched; an empty-history call shuffles it in place,
so its contents are preserved only as a multiset (a permutation), not in
order. -/
theorem c4_readonly_amended (cfg : Config) (dict : List Word) (r : Rand)
    (tfg : List Word) (guesses : List (Word × Word)) :
    (guesses ≠ [] → (get_next_words cfg dict r tfg guesses).2 = tfg) ∧
    (guesses = [] → r.shuffleFirst.Perm tfg →
      (get_next_words cfg dict r tfg guesses).2 = r.shuffleFirst ∧
      (get_next_words cfg dict r tfg guesses).2.Perm tfg) := by
  constructor
  · intro hne
    cases hT : apply_guesses dict guesses with
    | nil => rw [get_next_words_zero cfg dict r tfg guesses hne hT]
    | cons t ts =>
      by_cases hlen : (t :: ts).length ≤ 2
      · rw [get_next_words_small cfg dict r tfg guesses hne hT hlen]
      · rw [get_next_words_general cfg dict r tfg guesses hne (by rw [hT]; exact hlen)]
        cases reducePools cfg r
            (if cfg.hard_mode then apply_hardmode_constraints dict guesses else dict)
            (apply_guesses dict guesses) with
        | none => rfl
        | some st => rfl
  · intro he hperm
    subst he
    rw [get_next_words_nil]
    exact ⟨rfl, hperm⟩

/-- Witness for the amended C4: a non-empty-history call returns the list
unchanged, and a concrete empty-history call returns a permutation of it. -/
theorem c4_readonly_amended_witness :
    (get_next_words cfg0 [] r0 [wA] [(wA, wA)]).2 = [wA] ∧
    (get_next_words cfg0 [] r0w [wA, wB] []).2.Perm [wA, wB] :=
  ⟨(c4_readonly_amended cfg0 [] r0 [wA] [(wA, wA)]).1 (by decide),
   ((c4_readonly_amended cfg0 [] r0w [wA, wB] []).2 rfl (by decide)).2⟩

/-! Claim C8: one or two remaining targets. -/

/-- C8: for every non-empty history narrowing the targets pool to one or
two candidates, `get_next_words` returns a singleton scored 1 whose word is
drawn from that candidate set; and every candidate of the set is drawn
under some random choice, so the draw has full support on the set. -/
theorem c8_few_targets (cfg : Config) (dict : List Word) (r : Rand) (tfg : List Word)
    (guesses : List (Word × Word)) (hne : guesses ≠ [])
    (hlow : 1 ≤ (apply_guesses dict guesses).length)
    (hhigh : (apply_guesses dict guesses).length ≤ 2) :
    (∃ w ∈ apply_guesses dict guesses,
      get_next_words cfg dict r tfg guesses = (some [(w, (1 : ℚ))], tfg)) ∧
    (∀ w ∈ apply_guesses dict guesses, ∃ r2 : Rand,
      get_next_words cfg dict r2 tfg guesses = (some [(w, (1 : ℚ))], tfg)) := by
  cases hT : apply_guesses dict guesses with
  | nil => rw [hT] at hlow; exact absurd hlow (by simp)
  | cons t ts =>
    rw [hT] at hhigh
    constructor
    · refine ⟨(t :: ts).getD (r.choiceIdx % (t :: ts).length) [], ?_, ?_⟩
      · have hmod : r.choiceIdx % (t :: ts).length < (t :: ts).length :=
          Nat.mod_lt _ (by simp)
        have hgd : (t :: ts).getD (r.choiceIdx % (t :: ts).length) []
            = (t :: ts)[r.choiceIdx % (t :: ts).length] := by
          rw [List.getD_eq_getElem?_getD, List.getElem?_eq_getElem hmod]
          rfl
        rw [hgd]
        exact List.getElem_mem hmod
      · exact get_next_words_small cfg dict r tfg guesses hne hT hhigh
    · intro w hw
      obtain ⟨i, hi, hig⟩ := List.mem_iff_getElem.mp hw
      refine ⟨⟨r.shuffleFirst, i, r.shuffledGuesses, r.samp⟩, ?_⟩
      rw [get_next_words_small cfg dict _ tfg guesses hne hT hhigh]
      have hc : (⟨r.shuffleFirst, i, r.shuffledGuesses, r.samp⟩ : Rand).choiceIdx = i := rfl
      rw [hc, Nat.mod_eq_of_lt hi]
      have hgd : (t :: ts).getD i [] = (t :: ts)[i] := by
        rw [List.getD_eq_getElem?_getD, List.getElem?_eq_getElem hi]
        rfl
      rw [hgd, hig]

/-- Witness for C8 at a concrete dictionary with exactly two remaining
targets. -/
theorem c8_few_targets_witness :
    (∃ w ∈ apply_guesses dict8 histC6,
      get_next_words cfg0 dict8 r0 [wA] histC6 = (some [(w, (1 : ℚ))], [wA])) ∧
    (∀ w ∈ apply_guesses dict8 histC6, ∃ r2 : Rand,
      get_next_words cfg0 dict8 r2 [wA] histC6 = (some [(w, (1 : ℚ))], [wA])) :=
  c8_few_targets cfg0 dict8 r0 [wA] histC6 (by decide) (by decide) (by decide)

/-! Pool-reduction machinery (claims C5, C6, C10). -/

/-- The pre-filter either leaves the valids pool untouched or leaves at
least 50 words, and never grows the pool. -/
theorem prefilterGo_inv (maxPool : ℕ) (targets : List Word) :
    ∀ (ls : List (Word × Word)) (v : List Word),
      (prefilterGo maxPool targets ls v = v ∨ 50 ≤ (prefilterGo maxPool targets ls v).length) ∧
      (prefilterGo maxPool targets ls v).length ≤ v.length := by
  intro ls
  induction ls with
  | nil => intro v; exact ⟨Or.inl rfl, le_refl _⟩
  | cons p rest ih =>
    intro v
    obtain ⟨g, res⟩ := p
    simp only [prefilterGo]
    by_cases hb : v.length * targets.length ≤ maxPool
    · rw [if_pos hb]
      exact ⟨Or.inl rfl, le_refl _⟩
    · rw [if_neg hb]
      by_cases h50 : (apply_nonmatches v g res).length < 50
      · rw [if_pos h50]
        exact ih v
      · rw [if_neg h50]
        obtain ⟨hd, hl⟩ := ih (apply_nonmatches v g res)
        have hle : (apply_nonmatches v g res).length ≤ v.length := List.length_filter_le _ _
        refine ⟨Or.inr ?_, le_trans hl hle⟩
        rcases hd with hd | hd
        · rw [hd]; omega
        · exact hd

/-- A halving step applied to a pool of at least 11 words requests strictly
fewer words than the pool holds. -/
theorem sampleSize_lt (n : ℕ) (h : 11 ≤ n) : sampleSize n < n := by
  rw [sampleSize]
  have h1 : n / 2 < n := Nat.div_lt_self (by omega) (by omega)
  exact Nat.max_lt.mpr ⟨h1, by omega⟩

/-- The halving step never requests fewer than 10 words. -/
theorem sampleSize_ge (n : ℕ) : 10 ≤ sampleSize n := le_max_right _ _

/-- A pool product exceeding a budget of at least 100 forces the larger pool
to hold at least 11 words and both pools to be non-empty. -/
theorem eleven_of_prod {v t maxPool : ℕ} (hmax : 100 ≤ maxPool) (h : maxPool < v * t) :
    11 ≤ max v t ∧ 1 ≤ v ∧ 1 ≤ t := by
  refine ⟨?_, ?_, ?_⟩
  · by_contra hc
    push_neg at hc
    have hv : v ≤ 10 := le_trans (le_max_left v t) (by omega)
    have ht : t ≤ 10 := le_trans (le_max_right v t) (by omega)
    have : v * t ≤ 100 := le_trans (Nat.mul_le_mul hv ht) (by norm_num)
    omega
  · rcases Nat.eq_zero_or_pos v with h0 | h0
    · rw [h0, Nat.zero_mul] at h; omega
    · exact h0
  · rcases Nat.eq_zero_or_pos t with h0 | h0
    · rw [h0, Nat.mul_zero] at h; omega
    · exact h0

/-- With `gt_ratio = 1` and the selected (larger) pool holding at least 11
words, one subsampling iteration succeeds and strictly shrinks the true pool
product, refreshing `pool_size` to the true product. -/
theorem loopStep_dec (samp : List Word → ℕ → List Word) (hs : ValidSamp samp) (st : RState)
    (h11 : 11 ≤ max st.valids.length st.targets.length)
    (hv : 1 ≤ st.valids.length) (ht : 1 ≤ st.targets.length) :
    ∃ st2, loopStep 1 samp st = some st2
      ∧ st2.poolSize = st2.valids.length * st2.targets.length
      ∧ st2.valids.length * st2.targets.length < st.valids.length * st.targets.length
      ∧ 1 ≤ st2.valids.length ∧ 1 ≤ st2.targets.length := by
  by_cases hsel : st.targets.length * 1 ≤ st.valids.length
  · have h11v : 11 ≤ st.valids.length := by
      rw [max_eq_left (by omega)] at h11
      exact h11
    have hlt : sampleSize st.valids.length < st.valids.length := sampleSize_lt _ h11v
    have hk : sampleSize st.valids.length ≤ st.valids.length := le_of_lt hlt
    obtain ⟨hlen, _⟩ := hs st.valids _ hk
    refine ⟨⟨samp st.valids (sampleSize st.valids.length), st.targets,
        st.targets.length * (samp st.valids (sampleSize st.valids.length)).length⟩,
      ?_, ?_, ?_, ?_, ?_⟩
    · rw [loopStep, if_pos hsel, if_pos hk]
    · simp [Nat.mul_comm]
    · simp only [hlen]
      exact (Nat.mul_lt_mul_right ht).mpr hlt
    · simp only [hlen]
      have := sampleSize_ge st.valids.length
      omega
    · exact ht
  · have h11t : 11 ≤ st.targets.length := by
      rw [max_eq_right (by omega)] at h11
      exact h11
    have hlt : sampleSize st.targets.length < st.targets.length := sampleSize_lt _ h11t
    have hk : sampleSize st.targets.length ≤ st.targets.length := le_of_lt hlt
    obtain ⟨hlen, _⟩ := hs st.targets _ hk
    refine ⟨⟨st.valids, samp st.targets (sampleSize st.targets.length),
        (samp st.targets (sampleSize st.targets.length)).length * st.valids.length⟩,
      ?_, ?_, ?_, ?_, ?_⟩
    · rw [loopStep, if_neg hsel, if_pos hk]
    · simp [Nat.mul_comm]
    · simp only [hlen]
      exact (Nat.mul_lt_mul_left hv).mpr hlt
    · exact hv
    · simp only [hlen]
      have := sampleSize_ge st.targets.length
      omega

/-- The subsampling loop, started at a state whose `pool_size` equals the
true pool product, terminates within `pool_size` iterations at a state
within budget (budget at least 100, `gt_ratio = 1`). -/
theorem loopRun_correct (samp : List Word → ℕ → List Word) (maxPool : ℕ)
    (hs : ValidSamp samp) (hmax : 100 ≤ maxPool) :
    ∀ (fuel : ℕ) (st : RState),
      st.poolSize = st.valids.length * st.targets.length → st.poolSize < fuel →
      ∃ st2, loopRun 1 maxPool samp fuel st = some st2
        ∧ st2.poolSize = st2.valids.length * st2.targets.length
        ∧ st2.poolSize ≤ maxPool := by
  intro fuel
  induction fuel with
  | zero => intro st _ h; omega
  | succ n ih =>
    intro st hinv hlt
    by_cases hg : maxPool < st.poolSize
    · obtain ⟨h11, hv, ht⟩ := eleven_of_prod hmax (hinv ▸ hg)
      obtain ⟨st1, hstep, hinv1, hdec, hv1, ht1⟩ := loopStep_dec samp hs st h11 hv ht
      rw [loopRun, if_pos hg, hstep]
      exact ih st1 hinv1 (by omega)
    · rw [loopRun, if_neg hg]
      exact ⟨st, rfl, hinv, by omega⟩

/-- A state already within budget is a fixpoint of the loop for every fuel. -/
theorem loopRun_fix (gtRat maxPool : ℕ) (samp : List Word → ℕ → List Word) (st : RState)
    (hle : st.poolSize ≤ maxPool) :
    ∀ fuel, loopRun gtRat maxPool samp fuel st = some st := by
  intro fuel
  cases fuel with
  | zero => rfl
  | succ n => rw [loopRun, if_neg (by omega)]

/-- The first loop iteration after the pre-filter succeeds and decreases the
stale `pool_size`: the pre-filter guarantees the valids pool either kept at
least 50 words or is the untouched pool whose product is the stale value. -/
theorem entry_first (samp : List Word → ℕ → List Word) (maxPool : ℕ)
    (hs : ValidSamp samp) (hmax : 100 ≤ maxPool) (st0 : RState)
    (hstale : st0.valids.length * st0.targets.length ≤ st0.poolSize)
    (hv : 50 ≤ st0.valids.length ∨ st0.poolSize = st0.valids.length * st0.targets.length)
    (ht : 3 ≤ st0.targets.length) (hguard : maxPool < st0.poolSize) :
    ∃ st1, loopStep 1 samp st0 = some st1
      ∧ st1.poolSize = st1.valids.length * st1.targets.length
      ∧ st1.poolSize < st0.poolSize
      ∧ 1 ≤ st1.valids.length ∧ 1 ≤ st1.targets.length := by
  rcases hv with hv | hv
  · have h11 : 11 ≤ max st0.valids.length st0.targets.length :=
      le_trans (by omega) (le_max_left _ _)
    obtain ⟨st1, hstep, hinv1, hdec, h1, h2⟩ :=
      loopStep_dec samp hs st0 h11 (by omega) (by omega)
    exact ⟨st1, hstep, hinv1, by omega, h1, h2⟩
  · obtain ⟨h11, hvp, htp⟩ := eleven_of_prod hmax (hv ▸ hguard)
    obtain ⟨st1, hstep, hinv1, hdec, h1, h2⟩ := loopStep_dec samp hs st0 h11 hvp htp
    exact ⟨st1, hstep, hinv1, by omega, h1, h2⟩

/-- Shape of the state entering the subsampling loop: targets untouched,
`pool_size` stale (the product of the original pools), valids either
untouched or pre-filtered down to at least 50 words. -/
theorem entryState_spec (cfg : Config) (r : Rand) (valids targets : List Word) :
    (entryState cfg r valids targets).targets = targets ∧
    (entryState cfg r valids targets).poolSize = valids.length * targets.length ∧
    (entryState cfg r valids targets).valids.length * targets.length
        ≤ valids.length * targets.length ∧
    (50 ≤ (entryState cfg r valids targets).valids.length ∨
      (entryState cfg r valids targets).valids = valids) := by
  rw [entryState]
  by_cases h : cfg.maxPoolSize < valids.length * targets.length
  · rw [if_pos h]
    obtain ⟨hd, hl⟩ := prefilterGo_inv cfg.maxPoolSize targets r.shuffledGuesses valids
    refine ⟨rfl, rfl, Nat.mul_le_mul_right _ hl, ?_⟩
    rcases hd with hd | hd
    · exact Or.inr hd
    · exact Or.inl hd
  · rw [if_neg h]
    exact ⟨rfl, rfl, le_refl _, Or.inr rfl⟩

/-- C5: under the default configuration (`gt_ratio = 1`, budget at least
100) and a valid sampler, the pool-reduction pipeline of
`Solver.get_next_words` terminates — the fuel given to `loopRun` reaches a
state that is a fixpoint for every further fuel — and the resulting pools
satisfy `|valids| * |targets| ≤ max_pool_size`, so the scoring search
evaluates at most `max_pool_size` (guess, target) pairs. -/
theorem c5_pool_size_budget (cfg : Config) (r : Rand) (valids targets : List Word)
    (hgt : cfg.gtRat = 1) (hmax : 100 ≤ cfg.maxPoolSize) (hs : ValidSamp r.samp)
    (ht : 3 ≤ targets.length) :
    ∃ st, reducePools cfg r valids targets = some st
      ∧ st.valids.length * st.targets.length ≤ cfg.maxPoolSize
      ∧ st.poolSize ≤ cfg.maxPoolSize
      ∧ ∀ fuel, loopRun cfg.gtRat cfg.maxPoolSize r.samp fuel st = some st := by
  obtain ⟨hT, hP, hle, hv⟩ := entryState_spec cfg r valids targets
  rw [reducePools, hgt]
  by_cases hg : cfg.maxPoolSize < (entryState cfg r valids targets).poolSize
  · obtain ⟨st1, hstep, hinv1, hdec, hv1, ht1⟩ :=
      entry_first r.samp cfg.maxPoolSize hs hmax (entryState cfg r valids targets)
        (by rw [hT, hP]; exact hle)
        (by
          rcases hv with hv | hv
          · exact Or.inl hv
          · exact Or.inr (by rw [hT, hP, hv]))
        (by rw [hT]; omega) hg
    rw [loopRun, if_pos hg, hstep]
    obtain ⟨st2, hrun, hinv2, hle2⟩ :=
      loopRun_correct r.samp cfg.maxPoolSize hs hmax
        (entryState cfg r valids targets).poolSize st1 hinv1 (by omega)
    refine ⟨st2, hrun, ?_, hle2, ?_⟩
    · rw [← hinv2]; exact hle2
    · exact loopRun_fix 1 cfg.maxPoolSize r.samp st2 hle2
  · rw [loopRun, if_neg hg]
    refine ⟨entryState cfg r valids targets, rfl, ?_, by omega, ?_⟩
    · rw [hT]
      calc (entryState cfg r valids targets).valids.length * targets.length
          ≤ valids.length * targets.length := hle
        _ = (entryState cfg r valids targets).poolSize := hP.symm
        _ ≤ cfg.maxPoolSize := by omega
    · exact loopRun_fix 1 cfg.maxPoolSize r.samp _ (by omega)

/-- Witness for C5 at a concrete in-budget instance. -/
theorem c5_pool_size_budget_witness :
    ∃ st, reducePools cfg0 r0 [wA, wB, wC] [wA, wB, wC] = some st
      ∧ st.valids.length * st.targets.length ≤ cfg0.maxPoolSize
      ∧ st.poolSize ≤ cfg0.maxPoolSize
      ∧ ∀ fuel, loopRun cfg0.gtRat cfg0.maxPoolSize r0.samp fuel st = some st :=
  c5_pool_size_budget cfg0 r0 [wA, wB, wC] [wA, wB, wC] rfl (by decide)
    validSamp_take (by decide)

/-- The subsampling loop never fails from a state whose `pool_size` equals
the true pool product: the selected pool always holds at least the requested
sample size. -/
theorem loopRun_isSome_inv (samp : List Word → ℕ → List Word) (maxPool : ℕ)
    (hs : ValidSamp samp) (hmax : 100 ≤ maxPool) :
    ∀ (fuel : ℕ) (st : RState),
      st.poolSize = st.valids.length * st.targets.length →
      (loopRun 1 maxPool samp fuel st).isSome := by
  intro fuel
  induction fuel with
  | zero => intro st _; rfl
  | succ n ih =>
    intro st hinv
    by_cases hg : maxPool < st.poolSize
    · obtain ⟨h11, hv, ht⟩ := eleven_of_prod hmax (hinv ▸ hg)
      obtain ⟨st1, hstep, hinv1, _, _, _⟩ := loopStep_dec samp hs st h11 hv ht
      rw [loopRun, if_pos hg, hstep]
      exact ih st1 hinv1
    · rw [loopRun, if_neg hg]
      rfl

/-- C10: under the default configuration, every reachable state of the
subsampling loop in which the loop body runs selects a pool of at least 10
words, so the request `max(pool_size // 2, 10)` of `random.sample` never
exceeds the population and the loop never raises: for every fuel, the run
from the post-pre-filter entry state yields a state rather than the `none`
that models `ValueError`. -/
theorem c10_sample_request_safe (cfg : Config) (r : Rand) (valids targets : List Word)
    (hgt : cfg.gtRat = 1) (hmax : 100 ≤ cfg.maxPoolSize) (hs : ValidSamp r.samp)
    (ht : 3 ≤ targets.length) :
    ∀ fuel, (loopRun cfg.gtRat cfg.maxPoolSize r.samp fuel
      (entryState cfg r valids targets)).isSome := by
  intro fuel
  rw [hgt]
  obtain ⟨hT, hP, hle, hv⟩ := entryState_spec cfg r valids targets
  cases fuel with
  | zero => rfl
  | succ n =>
    by_cases hg : cfg.maxPoolSize < (entryState cfg r valids targets).poolSize
    · obtain ⟨st1, hstep, hinv1, _, _, _⟩ :=
        entry_first r.samp cfg.maxPoolSize hs hmax (entryState cfg r valids targets)
          (by rw [hT, hP]; exact hle)
          (by
            rcases hv with hv | hv
            · exact Or.inl hv
            · exact Or.inr (by rw [hT, hP, hv]))
          (by rw [hT]; omega) hg
      rw [loopRun, if_pos hg, hstep]
      exact loopRun_isSome_inv r.samp cfg.maxPoolSize hs hmax n st1 hinv1
    · rw [loopRun, if_neg hg]
      rfl

/-- Witness for C10 at a concrete instance and concrete fuel. -/
theorem c10_sample_request_safe_witness :
    (loopRun cfg0.gtRat cfg0.maxPoolSize r0.samp 10
      (entryState cfg0 r0 [wA, wB, wC] [wA, wB, wC])).isSome :=
  c10_sample_request_safe cfg0 r0 [wA, wB, wC] [wA, wB, wC] rfl (by decide)
    validSamp_take (by decide) 10

/-- Counterexample for C6 on the concrete 51-word dictionary: the pre-filter
brings the pool product exactly to the budget (50 × 3 = 150 ≤ 150), yet the
subsampling loop still runs one halving iteration — its guard tests the
stale `pool_size` 153 computed before the pre-filter — shrinking the valids
pool from 50 to 25 words. -/
theorem c6_stale_pool_size_counterexample :
    (apply_guesses dictC6 histC6).length = 3 ∧
    (entryState cfgC6 rC6 dictC6 (apply_guesses dictC6 histC6)).valids.length = 50 ∧
    (entryState cfgC6 rC6 dictC6 (apply_guesses dictC6 histC6)).valids.length *
        (apply_guesses dictC6 histC6).length ≤ cfgC6.maxPoolSize ∧
    (reducePools cfgC6 rC6 dictC6 (apply_guesses dictC6 histC6)).map
        (fun st => st.valids.length) = some 25 := by
  refine ⟨by decide, by decide, by decide, by decide⟩

/-- C6 amended: subsampling is governed by the product of the pool sizes
computed before the pre-filter (the stale `pool_size` variable): when the
original product is within budget neither the pre-filter nor any
subsampling iteration runs, and when it exceeds the budget one subsampling
iteration runs even if the pre-filter already brought the product within
budget; from the second iteration on the recomputed product governs. -/
theorem c6_subsample_iff_over_budget (cfg : Config) (r : Rand) (valids targets : List Word)
    (hgt : cfg.gtRat = 1) (hmax : 100 ≤ cfg.maxPoolSize) (hs : ValidSamp r.samp)
    (ht : 3 ≤ targets.length) :
    (valids.length * targets.length ≤ cfg.maxPoolSize →
      reducePools cfg r valids targets
        = some ⟨valids, targets, valids.length * targets.length⟩) ∧
    (cfg.maxPoolSize < valids.length * targets.length →
      ∃ st1, loopStep cfg.gtRat r.samp (entryState cfg r valids targets) = some st1 ∧
        st1.valids.length * st1.targets.length < valids.length * targets.length ∧
        reducePools cfg r valids targets
          = loopRun cfg.gtRat cfg.maxPoolSize r.samp
              (entryState cfg r valids targets).poolSize st1) := by
  constructor
  · intro hbudget
    rw [reducePools]
    have hE : entryState cfg r valids targets
        = ⟨valids, targets, valids.length * targets.length⟩ := by
      rw [entryState, if_neg (by omega)]
    rw [hE]
    exact loopRun_fix cfg.gtRat cfg.maxPoolSize r.samp _ (by simpa using hbudget) _
  · intro hover
    obtain ⟨hT, hP, hle, hv⟩ := entryState_spec cfg r valids targets
    have hguard : cfg.maxPoolSize < (entryState cfg r valids targets).poolSize := by
      rw [hP]; exact hover
    rw [hgt]
    obtain ⟨st1, hstep, hinv1, hdec, _, _⟩ :=
      entry_first r.samp cfg.maxPoolSize hs hmax (entryState cfg r valids targets)
        (by rw [hT, hP]; exact hle)
        (by
          rcases hv with hv | hv
          · exact Or.inl hv
          · exact Or.inr (by rw [hT, hP, hv]))
        (by rw [hT]; omega) hguard
    refine ⟨st1, hstep, by rw [← hinv1, ← hP]; omega, ?_⟩
    rw [reducePools, hgt, loopRun, if_pos hguard, hstep]

/-- Witness for the amended C6: an in-budget instance where the pools come
through untouched. -/
theorem c6_subsample_iff_over_budget_witness :
    reducePools cfg0 r0 [wA, wB, wC] [wA, wB, wC]
      = some ⟨[wA, wB, wC], [wA, wB, wC],
          ([wA, wB, wC] : List Word).length * ([wA, wB, wC] : List Word).length⟩ :=
  (c6_subsample_iff_over_budget cfg0 r0 [wA, wB, wC] [wA, wB, wC] rfl (by decide)
    validSamp_take (by decide)).1 (by decide)

/-! Claim C7: cap and ordering of the returned list. -/

/-- A list of words all scored 1 is ascending in score. -/
theorem pairwise_map_one (l : List Word) :
    (l.map (fun x => (x, (1 : ℚ)))).Pairwise (fun a b => a.2 ≤ b.2) := by
  induction l with
  | nil => simp
  | cons x rest ih =>
    simp only [List.map_cons]
    refine List.Pairwise.cons ?_ ih
    intro p hp
    simp only [List.mem_map] at hp
    obtain ⟨y, _, rfl⟩ := hp
    exact le_refl _

/-- The final sort produces a list ascending in score. -/
theorem sortScores_pairwise (l : List (Word × ℚ)) :
    (sortScores l).Pairwise (fun a b => a.2 ≤ b.2) := by
  have h := @List.sorted_mergeSort (Word × ℚ) (fun a b => decide (a.2 ≤ b.2))
    (fun a b c hab hbc => by
      simp only [decide_eq_true_eq] at *
      exact le_trans hab hbc)
    (fun a b => by
      simp only [Bool.or_eq_true, decide_eq_true_eq]
      exact le_total a.2 b.2) l
  exact h.imp (fun hb => by simpa using hb)

/-- The cap of `recommend_next_words` leaves at most 10 entries. -/
theorem trunc_length (l : List (Word × ℚ)) :
    (if 10 < l.length then l.take 10 else l).length ≤ 10 := by
  split
  · simp [List.length_take]
  · omega

/-- C7: whenever `recommend_next_words` returns a list (rather than
raising), that list has at most 10 entries and is ascending in score. -/
theorem c7_cap_and_ascending (costFn : ℕ → ℚ) (rnd : ℚ → ℚ) (dict : List Word)
    (r : Rand) (tfg : List Word) (guesses : List (Word × Word)) (hm : Bool)
    (l : List (Word × ℚ)) (tfg2 : List Word)
    (h : recommend_next_words costFn rnd dict r tfg guesses hm = (some l, tfg2)) :
    l.length ≤ 10 ∧ l.Pairwise (fun a b => a.2 ≤ b.2) := by
  rw [recommend_next_words] at h
  split at h
  · exact absurd (congrArg Prod.fst h) (by simp)
  · rename_i gs hgs
    rw [Prod.mk.injEq] at h
    obtain ⟨h1, h2⟩ := h
    cases hg : (get_next_words ⟨hm, costFn, 5000, 1, rnd⟩ dict r tfg gs).1 with
    | none => rw [hg] at h1; cases h1
    | some l0 =>
      rw [hg] at h1
      simp only [Option.map_some'] at h1
      obtain rfl : l = if 10 < l0.length then l0.take 10 else l0 := (Option.some.inj h1).symm
      have hp0 : l0.Pairwise (fun a b => a.2 ≤ b.2) := by
        rcases gs with _ | ⟨q, qs⟩
        · rw [get_next_words_nil] at hg
          obtain rfl : l0 = r.shuffleFirst.map (fun x => (x, (1 : ℚ))) :=
            (Option.some.inj hg).symm
          exact pairwise_map_one r.shuffleFirst
        · have hne : (q :: qs) ≠ ([] : List (Word × Word)) := by simp
          cases hT : apply_guesses dict (q :: qs) with
          | nil =>
            rw [get_next_words_zero _ _ _ _ _ hne hT] at hg
            cases hg
          | cons t ts =>
            by_cases hlen : (t :: ts).length ≤ 2
            · rw [get_next_words_small _ _ _ _ _ hne hT hlen] at hg
              obtain rfl : l0
                  = [((t :: ts).getD (r.choiceIdx % (t :: ts).length) [], (1 : ℚ))] :=
                (Option.some.inj hg).symm
              simp
            · rw [get_next_words_general _ _ _ _ _ hne (by rw [hT]; exact hlen)] at hg
              split at hg
              · cases hg
              · rename_i st hred
                obtain rfl : l0 = sortScores (scoreLoop ⟨hm, costFn, 5000, 1, rnd⟩
                    (q :: qs) st.targets st.valids ⊤ []) := (Option.some.inj hg).symm
                exact sortScores_pairwise _
      refine ⟨trunc_length l0, ?_⟩
      split
      · exact hp0.sublist (List.take_sublist 10 l0)
      · exact hp0

/-- Witness for C7 at a concrete empty-history call returning two entries. -/
theorem c7_cap_and_ascending_witness :
    ([(wB, (1 : ℚ)), (wA, (1 : ℚ))] : List (Word × ℚ)).length ≤ 10 ∧
    ([(wB, (1 : ℚ)), (wA, (1 : ℚ))] : List (Word × ℚ)).Pairwise (fun a b => a.2 ≤ b.2) :=
  c7_cap_and_ascending cf0 (fun q => q) [] r0w [wA, wB] [] false
    [(wB, (1 : ℚ)), (wA, (1 : ℚ))] [wB, wA] (by decide)

end Wordly
